import Mathlib

/-!
Verification of the quote-decoding and technical-indicator core of
`pro-stock-mcp/index.js` (a stock-data MCP server).

Strings are modelled as `List Char`; JavaScript numbers are modelled as
exact rationals (`ℚ`), with `Real.sqrt` used where the source calls
`Math.sqrt`.  Each JavaScript function of the core is translated into a
Lean definition of the same name; spec-side reformulations carry a
`Spec` suffix.  Definitions come first, theorems follow.
-/

namespace StockMcp

/-- `beginsWith l p` models JavaScript `l.startsWith(p)` on character lists. -/
def beginsWith : List Char → List Char → Bool
  | _, [] => true
  | [], _ :: _ => false
  | c :: s, p :: ps => c == p && beginsWith s ps

/--
`normalizeCode` from `index.js`: an input already starting with `"sh"` or
`"sz"` is returned unchanged; otherwise a first character `'5'` or `'6'`
gets `"sh"` prepended and anything else gets `"sz"` prepended.
-/
def normalizeCode (symbol : List Char) : List Char :=
  if beginsWith symbol ['s', 'h'] || beginsWith symbol ['s', 'z'] then
    symbol
  else if beginsWith symbol ['5'] || beginsWith symbol ['6'] then
    ['s', 'h'] ++ symbol
  else
    ['s', 'z'] ++ symbol

/--
`calculateRSI` from `index.js`.  The source loop over
`i = prices.length - period .. prices.length - 1` accumulating
`change = prices[i] - prices[i-1]` is rendered as a left fold over the
consecutive differences of the last `period + 1` prices (the guard makes
every index of the loop in bounds, so the two are the same differences).
-/
def calculateRSI (prices : List ℚ) (period : ℕ) : ℚ :=
  if prices.length < period + 1 then 50
  else
    let window := prices.drop (prices.length - (period + 1))
    let changes := List.zipWith (fun a b => a - b) window.tail window
    let gl := changes.foldl
      (fun gl change =>
        if 0 < change then (gl.1 + change, gl.2) else (gl.1, gl.2 - change))
      ((0 : ℚ), (0 : ℚ))
    let avgGain := gl.1 / (period : ℚ)
    let avgLoss := gl.2 / (period : ℚ)
    if avgLoss = 0 then 100
    else 100 - 100 / (1 + avgGain / avgLoss)

/-- Spec-side: the sum of the positive deltas ("gains"). -/
def posGains (ds : List ℚ) : ℚ := (ds.filter (fun d => 0 < d)).sum

/-- Spec-side: the sum of the absolute values of the negative deltas
("losses"). -/
def negLosses (ds : List ℚ) : ℚ :=
  ((ds.filter (fun d => d < 0)).map (fun d => -d)).sum

/-- The nested `calculateEMA` of `calculateMACD` in `index.js`:
`ema = data[0]`, then `ema = (data[i] - ema) * multiplier + ema`. -/
def calculateEMA (data : List ℚ) (period : ℕ) : ℚ :=
  let multiplier := 2 / ((period : ℚ) + 1)
  data.tail.foldl (fun ema x => (x - ema) * multiplier + ema) (data.headD 0)

/-- Spec-side recursion for the EMA: `ema ← ema + m·(x − ema)`. -/
def emaGo (m : ℚ) : ℚ → List ℚ → ℚ
  | ema, [] => ema
  | ema, x :: xs => emaGo m (ema + m * (x - ema)) xs

/-- Spec-side EMA: the standard recursive EMA seeded with the window's
first element and multiplier `2 / (period + 1)`. -/
def emaSpec (window : List ℚ) (period : ℕ) : ℚ :=
  match window with
  | [] => 0
  | x :: xs => emaGo (2 / ((period : ℚ) + 1)) x xs

structure MACDResult where
  dif : ℚ
  dea : ℚ
  macd : ℚ
deriving DecidableEq

/-- `calculateMACD` from `index.js` (`0.9` is the exact rational `9/10`). -/
def calculateMACD (prices : List ℚ) (fastPeriod slowPeriod : ℕ) : MACDResult :=
  if prices.length < slowPeriod then ⟨0, 0, 0⟩
  else
    let recentPrices := prices.drop (prices.length - slowPeriod)
    let fastEMA := calculateEMA recentPrices fastPeriod
    let slowEMA := calculateEMA recentPrices slowPeriod
    let dif := fastEMA - slowEMA
    let dea := dif * (9 / 10)
    let macd := 2 * (dif - dea)
    ⟨dif, dea, macd⟩

structure KDJResult where
  k : ℚ
  d : ℚ
  j : ℚ
deriving DecidableEq

/-- `Math.max(...l)` for the non-empty lists arising under the KDJ guard. -/
def listMax (l : List ℚ) : ℚ := l.foldl max (l.headD 0)

/-- `Math.min(...l)` for the non-empty lists arising under the KDJ guard. -/
def listMin (l : List ℚ) : ℚ := l.foldl min (l.headD 0)

/-- `calculateKDJ` from `index.js`: single-shot KDJ with the previous K
and D fixed at 50. -/
def calculateKDJ (highs lows closes : List ℚ) (period : ℕ) : KDJResult :=
  if highs.length < period then ⟨50, 50, 50⟩
  else
    let recentHighs := highs.drop (highs.length - period)
    let recentLows := lows.drop (lows.length - period)
    let recentCloses := closes.drop (closes.length - period)
    let highestHigh := listMax recentHighs
    let lowestLow := listMin recentLows
    let currentClose := recentCloses.getLastD 0
    let rsv := (currentClose - lowestLow) / (highestHigh - lowestLow) * 100
    let k := (2 / 3) * 50 + (1 / 3) * rsv
    let d := (2 / 3) * 50 + (1 / 3) * k
    let j := 3 * k - 2 * d
    ⟨k, d, j⟩

structure BOLLResult where
  upper : ℝ
  middle : ℝ
  lower : ℝ

/-- `calculateBOLL` from `index.js`: mean and population standard
deviation of the last `period` closes, bands at `middle ± multiplier·σ`.
`Math.sqrt` is modelled by `Real.sqrt`. -/
noncomputable def calculateBOLL (prices : List ℚ) (period : ℕ)
    (multiplier : ℚ) : BOLLResult :=
  if prices.length < period then ⟨0, 0, 0⟩
  else
    let recentPrices := prices.drop (prices.length - period)
    let s := recentPrices.foldl (· + ·) 0
    let middle := s / (period : ℚ)
    let squaredDiffs := recentPrices.map (fun price => (price - middle) ^ 2)
    let avgSquaredDiff := squaredDiffs.foldl (· + ·) 0 / (period : ℚ)
    let standardDeviation := Real.sqrt ((avgSquaredDiff : ℚ) : ℝ)
    ⟨(middle : ℝ) + (multiplier : ℝ) * standardDeviation,
     (middle : ℝ),
     (middle : ℝ) - (multiplier : ℝ) * standardDeviation⟩

/-- JavaScript `split` with a single-character separator. -/
def splitCh (sep : Char) : List Char → List (List Char)
  | [] => [[]]
  | c :: rest =>
    if c = sep then [] :: splitCh sep rest
    else
      match splitCh sep rest with
      | [] => [[c]]
      | h :: t => (c :: h) :: t

/-- JavaScript `split` with a multi-character separator, fuelled; any
fuel of at least the list length gives the `split` semantics. -/
def splitSeqF (sep : List Char) : ℕ → List Char → List (List Char)
  | 0, l => [l]
  | _ + 1, [] => [[]]
  | n + 1, c :: rest =>
    if beginsWith (c :: rest) sep then
      [] :: splitSeqF sep n ((c :: rest).drop sep.length)
    else
      match splitSeqF sep n rest with
      | [] => [[c]]
      | h :: t => (c :: h) :: t

/-- JavaScript `l.split(sep)` for a non-empty separator string. -/
def splitSeq (sep : List Char) (l : List Char) : List (List Char) :=
  splitSeqF sep (l.length + 1) l

inductive PriceReport where
  | notFound
  | ok (name price changeAmount changePercent : List Char)
deriving DecidableEq

/-- The decode step of the `get_stock_price` handler: split the quoted
payload on `'~'`; fewer than 30 fields is the "not found" report;
otherwise the report reads the fixed positions (name 1, last price 3,
change amount 31, change percent 32). -/
def get_stock_price_decode (payload : List Char) : PriceReport :=
  let data := splitCh '~' payload
  if data.length < 30 then .notFound
  else .ok (data.getD 1 []) (data.getD 3 []) (data.getD 31 []) (data.getD 32 [])

inductive FundReport where
  | unavailable
  | ok (name pe pb mktCap : List Char)
deriving DecidableEq

def naText : List Char := ['N', '/', 'A']

/-- The decode step of the `get_stock_fundamentals` handler: split the
quoted payload on `'~'`; fewer than 45 fields is the "financial data
unavailable" report; otherwise PE is field 39 (the empty string — falsy
in JavaScript — becomes "N/A"), PB is field 46 when more than 46 fields
are present and field 44 otherwise, and market cap is field 45. -/
def get_stock_fundamentals_decode (payload : List Char) : FundReport :=
  let data := splitCh '~' payload
  if data.length < 45 then .unavailable
  else
    let pe := if data.getD 39 [] = [] then naText else data.getD 39 []
    let pb := if 46 < data.length then data.getD 46 [] else data.getD 44 []
    .ok (data.getD 1 []) pe pb (data.getD 45 [])

structure IndexQuote where
  name : List Char
  price : List Char
  changePercent : List Char
deriving DecidableEq

def strMark : List Char := ['s', 't', 'r', '_']

/-- The key extraction of the `get_market_overview` line loop:
`line.split('=')[0].split('str_')[1]`; `none` models JavaScript
`undefined`. -/
def extractAssignKey (line : List Char) : Option (List Char) :=
  (splitSeq strMark ((splitCh '=' line).getD 0 []))[1]?

/-- One iteration of the `get_market_overview` line loop.  `.error ()`
models the `TypeError` thrown when the line has no `'"'` (then
`line.split('"')[1]` is `undefined` and `undefined.split(',')` throws);
`.ok none` is a silently skipped line; `.ok (some q)` contributes one
quote, whose display name comes from the key table and whose price and
change percent are fields 1 and 3 of the comma-split quoted payload.
The JavaScript truthiness test `if (indexNames[code])` also skips an
empty display name, hence the `nm = []` case. -/
def decodeIndexLine (table : List (List Char × List Char)) (line : List Char) :
    Except Unit (Option IndexQuote) :=
  match (splitCh '"' line)[1]? with
  | none => .error ()
  | some dataStr =>
    let data := splitCh ',' dataStr
    match extractAssignKey line with
    | none => .ok none
    | some code =>
      match table.lookup code with
      | none => .ok none
      | some nm =>
        if nm = [] then .ok none
        else .ok (some ⟨nm, data.getD 1 [], data.getD 3 []⟩)

/-- The line loop of `get_market_overview`: lines shorter than 10
characters are skipped, a thrown error aborts the handler, emitted
quotes are collected in order. -/
def decodeIndexLines (table : List (List Char × List Char)) :
    List (List Char) → Except Unit (List IndexQuote)
  | [] => .ok []
  | line :: rest =>
    if line.length < 10 then decodeIndexLines table rest
    else
      match decodeIndexLine table line with
      | .error e => .error e
      | .ok none => decodeIndexLines table rest
      | .ok (some q) =>
        match decodeIndexLines table rest with
        | .error e => .error e
        | .ok qs => .ok (q :: qs)

/-- The decode step of the `get_market_overview` handler: split on
newlines and run the line loop. -/
def get_market_overview_decode (table : List (List Char × List Char))
    (text : List Char) : Except Unit (List IndexQuote) :=
  decodeIndexLines table (splitCh '\n' text)

/-- Spec-side description of one index line: extract the assignment key,
look it up in the key table, and when present (with a non-empty display
name) emit an `IndexQuote` with price = field 1 and changePercent =
field 3 of the comma-split quoted payload; otherwise skip the line. -/
def indexLineSpec (table : List (List Char × List Char)) (line : List Char) :
    Option IndexQuote :=
  match extractAssignKey line with
  | none => none
  | some code =>
    match table.lookup code with
    | none => none
    | some nm =>
      if nm = [] then none
      else
        some ⟨nm, (splitCh ',' ((splitCh '"' line).getD 1 [])).getD 1 [],
          (splitCh ',' ((splitCh '"' line).getD 1 [])).getD 3 []⟩

structure StockItem where
  code : List Char
  name : List Char
  price : ℚ
  changePercent : ℚ
  volume : ℚ
  turnover : ℚ
deriving DecidableEq

inductive SortBy where
  | change_rate
  | volume
  | turnover
deriving DecidableEq

/-- The sort key selected by the `get_hot_stocks` comparator. -/
def sortKeyVal (s : SortBy) (it : StockItem) : ℚ :=
  match s with
  | .change_rate => it.changePercent
  | .volume => it.volume
  | .turnover => it.turnover

/-- Stable descending insertion: insert `a` before the first element
whose key is at most `a`'s key. -/
def insertDesc (key : StockItem → ℚ) (a : StockItem) :
    List StockItem → List StockItem
  | [] => [a]
  | b :: l => if key b ≤ key a then a :: b :: l else b :: insertDesc key a l

/-- Stable descending sort, the behaviour of the JavaScript stable
`Array.prototype.sort` with comparator `(a, b) => key b - key a`. -/
def sortDesc (key : StockItem → ℚ) (l : List StockItem) : List StockItem :=
  l.foldr (insertDesc key) []

/-- The aggregation loop of `get_hot_stocks` (source lines 860–907): one
fetch+decode per code with a `try`/`catch` that silently skips failures
(`fetchDecode c = none` covers both a thrown fetch and a payload with at
most 30 fields), then a stable descending sort by the selected key and a
`slice(0, limit)`.  The return value is only this item list. -/
def getHotStocksAggregate (codes : List (List Char))
    (fetchDecode : List Char → Option StockItem) (sortBy : SortBy)
    (limit : ℕ) : List StockItem :=
  (sortDesc (sortKeyVal sortBy) (codes.filterMap fetchDecode)).take limit

inductive Market where
  | all
  | sh
  | sz
  | cy
  | kc
deriving DecidableEq

def shHotStocks : List (List Char) :=
  ["sh600519".toList, "sh601318".toList, "sh600036".toList,
   "sh600276".toList, "sh601328".toList, "sh600000".toList,
   "sh601398".toList, "sh601939".toList, "sh600104".toList,
   "sh601988".toList]

def szHotStocks : List (List Char) :=
  ["sz000858".toList, "sz000651".toList, "sz300750".toList,
   "sz002594".toList, "sz002415".toList, "sz000001".toList,
   "sz000002".toList, "sz000725".toList, "sz300015".toList,
   "sz300142".toList]

def cyHotStocks : List (List Char) :=
  ["sz300750".toList, "sz300059".toList, "sz300142".toList,
   "sz300124".toList, "sz300033".toList]

/-- The hot-stock candidate list built by `get_hot_stocks` before
dedup (the `kc` market selects none of the branches). -/
def hotStocksBase (market : Market) : List (List Char) :=
  (if market = .sh ∨ market = .all then shHotStocks else []) ++
  (if market = .sz ∨ market = .all then szHotStocks else []) ++
  (if market = .cy ∨ market = .all then cyHotStocks else [])

/-- First-occurrence deduplication, the behaviour of
`[...new Set(l)]`. -/
def setDedup {α : Type} [DecidableEq α] : List α → List α → List α
  | _, [] => []
  | seen, a :: l => if a ∈ seen then setDedup seen l else a :: setDedup (a :: seen) l

def jsSetDedup {α : Type} [DecidableEq α] (l : List α) : List α := setDedup [] l

/-- `get_hot_stocks` line 848: `[...new Set(hotStocks)].slice(0, limit)` —
the list of codes that the fetch loop then iterates exactly once. -/
def hotStocksCodes (market : Market) (limit : ℕ) : List (List Char) :=
  (jsSetDedup (hotStocksBase market)).take limit

def shPeerCodes : List (List Char) :=
  ["sh600000".toList, "sh600036".toList, "sh600015".toList,
   "sh600016".toList, "sh601328".toList, "sh601398".toList,
   "sh601939".toList, "sh601166".toList, "sh601229".toList,
   "sh600104".toList]

def szPeerCodes : List (List Char) :=
  ["sz000001".toList, "sz000002".toList, "sz000725".toList,
   "sz000876".toList, "sz000839".toList, "sz000858".toList,
   "sz000001".toList, "sz000002".toList, "sz000725".toList,
   "sz000876".toList]

def cyPeerCodes : List (List Char) :=
  ["sz300001".toList, "sz300002".toList, "sz300003".toList,
   "sz300005".toList, "sz300015".toList, "sz300033".toList,
   "sz300059".toList, "sz300124".toList, "sz300142".toList,
   "sz300750".toList]

def defaultPeerCodes : List (List Char) :=
  ["sh600519".toList, "sh601318".toList, "sh600036".toList,
   "sz000858".toList, "sz300750".toList, "sz002594".toList,
   "sh600276".toList, "sz000651".toList, "sh601988".toList,
   "sz002415".toList]

/-- The hardcoded peer-code table of `get_stock_peers` (source lines
749–761), selected by the normalized code's market prefix and the bare
ticker's two leading digits; note the `szPeerCodes` branch repeats four
codes. -/
def peerCodesFor (code : List Char) : List (List Char) :=
  if beginsWith code ['s', 'h'] && beginsWith (code.drop 2) ['6', '0'] then
    shPeerCodes
  else if beginsWith code ['s', 'z'] && beginsWith (code.drop 2) ['0', '0'] then
    szPeerCodes
  else if beginsWith code ['s', 'z'] && beginsWith (code.drop 2) ['3', '0'] then
    cyPeerCodes
  else
    defaultPeerCodes

/-- The codes actually fetched by the `get_stock_peers` loop: each
iteration first checks `peerCount >= limit`, then fetches the code
unconditionally; `ok c` tells whether the fetched code decodes
successfully (incrementing `peerCount`). -/
def peersFetchSequence (ok : List Char → Bool) (limit : ℕ) :
    List (List Char) → ℕ → List (List Char)
  | [], _ => []
  | c :: rest, cnt =>
    if limit ≤ cnt then []
    else c :: peersFetchSequence ok limit rest (if ok c then cnt + 1 else cnt)

/-- The full fetched-code sequence of one `get_stock_peers` request. -/
def get_stock_peers_fetched (symbol : List Char) (ok : List Char → Bool)
    (limit : ℕ) : List (List Char) :=
  peersFetchSequence ok limit (peerCodesFor (normalizeCode symbol)) 0

/-- Concrete aggregation inputs: ten codes of which three fail to
decode. -/
def c4codesA : List (List Char) :=
  [['a'], ['b'], ['c'], ['d'], ['e'], ['f'], ['g'], ['h'], ['i'], ['j']]

/-- The same seven succeeding codes with no failing ones. -/
def c4codesB : List (List Char) :=
  [['a'], ['b'], ['c'], ['d'], ['e'], ['f'], ['g']]

/-- A decode outcome map: `h`, `i`, `j` fail, the rest succeed with
strictly decreasing change percents. -/
def c4decode (c : List Char) : Option StockItem :=
  if c = ['a'] then some ⟨c, c, 0, 7, 0, 0⟩
  else if c = ['b'] then some ⟨c, c, 0, 6, 0, 0⟩
  else if c = ['c'] then some ⟨c, c, 0, 5, 0, 0⟩
  else if c = ['d'] then some ⟨c, c, 0, 4, 0, 0⟩
  else if c = ['e'] then some ⟨c, c, 0, 3, 0, 0⟩
  else if c = ['f'] then some ⟨c, c, 0, 2, 0, 0⟩
  else if c = ['g'] then some ⟨c, c, 0, 1, 0, 0⟩
  else none

/-- The key table of `get_market_overview`, first entry only. -/
def c7table : List (List Char × List Char) :=
  [("s_sh000001".toList, "上证指数".toList)]

/-- A one-record index-snapshot text in the upstream shape. -/
def c7text : List Char :=
  "var hq_str_s_sh000001=\"上证指数,3000.00,3010.00,-0.33,...\";\n".toList

/-- A 47-field tilde-separated payload (all fields `"a"`). -/
def c1payload : List Char :=
  (List.replicate 46 ['a', '~']).flatten ++ ['a']

/-- A 20-field tilde-separated payload. -/
def c1short : List Char :=
  (List.replicate 19 ['a', '~']).flatten ++ ['a']

/-! ### Theorems -/

theorem beginsWith_append (p s : List Char) : beginsWith (p ++ s) p = true := by
  induction p with
  | nil => cases s <;> rfl
  | cons c cs ih => simp [beginsWith, ih]

theorem beginsWith_cons₂ (a b : Char) (s : List Char) :
    beginsWith (a :: b :: s) [a, b] = true := by
  simp [beginsWith]

theorem beginsWith_single (s : List Char) (c : Char) :
    beginsWith s [c] = true ↔ s.head? = some c := by
  cases s with
  | nil => simp [beginsWith]
  | cons x xs => simp [beginsWith]

/-- **C5**: `normalizeCode` is total on strings (it is a Lean function) and
deterministic; input already starting with `"sh"` or `"sz"` is returned
unchanged; otherwise an input whose first character is `'5'` or `'6'` gets
`"sh"` prepended, and any other input gets `"sz"` prepended; and it is
idempotent: `normalizeCode (normalizeCode x) = normalizeCode x`. -/
theorem normalizeCode_cases_and_idempotent (s : List Char) :
    ((beginsWith s ['s', 'h'] = true ∨ beginsWith s ['s', 'z'] = true) →
      normalizeCode s = s) ∧
    ((beginsWith s ['s', 'h'] = false ∧ beginsWith s ['s', 'z'] = false) →
      ((s.head? = some '5' ∨ s.head? = some '6') →
        normalizeCode s = ['s', 'h'] ++ s) ∧
      ((s.head? ≠ some '5' ∧ s.head? ≠ some '6') →
        normalizeCode s = ['s', 'z'] ++ s)) ∧
    normalizeCode (normalizeCode s) = normalizeCode s := by
  refine ⟨?_, ?_, ?_⟩
  · intro h
    unfold normalizeCode
    rcases h with h | h <;> simp [h]
  · intro h
    refine ⟨?_, ?_⟩
    · intro h56
      unfold normalizeCode
      rw [h.1, h.2]
      rcases h56 with h5 | h6
      · rw [← beginsWith_single] at h5
        simp [h5]
      · rw [← beginsWith_single] at h6
        simp [h6]
    · intro h56
      unfold normalizeCode
      rw [h.1, h.2]
      have h5 : beginsWith s ['5'] = false := by
        rcases hb : beginsWith s ['5'] with _ | _
        · rfl
        · exact absurd ((beginsWith_single s '5').1 hb) h56.1
      have h6 : beginsWith s ['6'] = false := by
        rcases hb : beginsWith s ['6'] with _ | _
        · rfl
        · exact absurd ((beginsWith_single s '6').1 hb) h56.2
      simp [h5, h6]
  · have key : ∀ t : List Char,
        (beginsWith t ['s', 'h'] || beginsWith t ['s', 'z']) = true →
        normalizeCode t = t := by
      intro t h
      unfold normalizeCode
      simp [h]
    cases h1 : (beginsWith s ['s', 'h'] || beginsWith s ['s', 'z']) with
    | true =>
      have e : normalizeCode s = s := key s h1
      rw [e]
      exact e
    | false =>
      cases h2 : (beginsWith s ['5'] || beginsWith s ['6']) with
      | true =>
        have e : normalizeCode s = ['s', 'h'] ++ s := by
          unfold normalizeCode
          simp [h1, h2]
        rw [e]
        exact key _ (by simp [beginsWith_cons₂])
      | false =>
        have e : normalizeCode s = ['s', 'z'] ++ s := by
          unfold normalizeCode
          simp [h1, h2]
        rw [e]
        exact key _ (by simp [beginsWith_cons₂])

/-- Witness for C5 at concrete inputs. -/
theorem normalizeCode_witness :
    (beginsWith ['s', 'h', '6'] ['s', 'h'] = true ∨
      beginsWith ['s', 'h', '6'] ['s', 'z'] = true) ∧
    normalizeCode ['s', 'h', '6'] = ['s', 'h', '6'] ∧
    normalizeCode ['6', '0', '0'] = ['s', 'h', '6', '0', '0'] ∧
    normalizeCode ['0', '0', '1'] = ['s', 'z', '0', '0', '1'] := by
  refine ⟨Or.inl (by decide), ?_, ?_, ?_⟩
  · exact (normalizeCode_cases_and_idempotent ['s', 'h', '6']).1
      (Or.inl (by decide))
  · exact ((normalizeCode_cases_and_idempotent ['6', '0', '0']).2.1
      ⟨by decide, by decide⟩).1 (Or.inr (by decide))
  · exact ((normalizeCode_cases_and_idempotent ['0', '0', '1']).2.1
      ⟨by decide, by decide⟩).2 ⟨by decide, by decide⟩

/-- The gains/losses fold of `calculateRSI` computes the sum of the
positive deltas and the sum of the absolute negative deltas. -/
theorem rsi_foldl_eq (ds : List ℚ) (g l : ℚ) :
    ds.foldl
        (fun gl change =>
          if 0 < change then (gl.1 + change, gl.2) else (gl.1, gl.2 - change))
        (g, l)
      = (g + posGains ds, l + negLosses ds) := by
  induction ds generalizing g l with
  | nil => simp [posGains, negLosses]
  | cons d ds ih =>
    rw [List.foldl_cons]
    by_cases hd : 0 < d
    · have hneg : ¬ d < 0 := by linarith
      have h1 : posGains (d :: ds) = d + posGains ds := by
        simp [posGains, List.filter_cons, hd]
      have h2 : negLosses (d :: ds) = negLosses ds := by
        simp [negLosses, List.filter_cons, hneg]
      rw [if_pos hd, ih, h1, h2]
      simp only [Prod.mk.injEq]
      exact ⟨by ring, trivial⟩
    · have h1 : posGains (d :: ds) = posGains ds := by
        simp [posGains, List.filter_cons, hd]
      by_cases hz : d < 0
      · have h2 : negLosses (d :: ds) = -d + negLosses ds := by
          simp [negLosses, List.filter_cons, hz]
        rw [if_neg hd, ih, h1, h2]
        simp only [Prod.mk.injEq]
        exact ⟨trivial, by ring⟩
      · have hdz : d = 0 := le_antisymm (not_lt.1 hd) (not_lt.1 hz)
        have h2 : negLosses (d :: ds) = negLosses ds := by
          simp [negLosses, List.filter_cons, hz]
        rw [if_neg hd, ih, h1, h2, hdz]
        simp only [Prod.mk.injEq]
        exact ⟨trivial, by ring⟩

theorem zip_sub_zero_of_const (c : ℚ) :
    ∀ (u v : List ℚ), (∀ x ∈ u, x = c) → (∀ x ∈ v, x = c) →
      ∀ d ∈ List.zipWith (fun a b => a - b) u v, d = 0 := by
  intro u
  induction u with
  | nil =>
    intro v _ _ d hd
    simp at hd
  | cons x xs ih =>
    intro v hu hv d hd
    cases v with
    | nil => simp at hd
    | cons y ys =>
      simp only [List.zipWith_cons_cons, List.mem_cons] at hd
      rcases hd with hd | hd
      · have hx : x = c := hu x (List.mem_cons_self _ _)
        have hy : y = c := hv y (List.mem_cons_self _ _)
        rw [hd, hx, hy, sub_self]
      · exact ih ys (fun z hz => hu z (List.mem_cons_of_mem _ hz))
          (fun z hz => hv z (List.mem_cons_of_mem _ hz)) d hd

theorem posGains_eq_zero (ds : List ℚ) (h : ∀ d ∈ ds, d = 0) :
    posGains ds = 0 := by
  unfold posGains
  have he : ds.filter (fun d => 0 < d) = [] := by
    rw [List.filter_eq_nil_iff]
    intro a ha
    simp [h a ha]
  simp [he]

theorem negLosses_eq_zero (ds : List ℚ) (h : ∀ d ∈ ds, d = 0) :
    negLosses ds = 0 := by
  unfold negLosses
  have he : ds.filter (fun d => d < 0) = [] := by
    rw [List.filter_eq_nil_iff]
    intro a ha
    simp [h a ha]
  simp [he]

/-- **C2**: with period 14, `calculateRSI` returns exactly 50 on fewer
than 15 prices; otherwise it works over exactly the last 14 transitions,
summing positive deltas into the gains and absolute negative deltas into
the losses, returning 100 when `avgLoss = losses/14` is zero (in
particular for any constant price history) and
`100 − 100/(1 + avgGain/avgLoss)` otherwise. -/
theorem calculateRSI_spec (prices : List ℚ) :
    (prices.length < 15 → calculateRSI prices 14 = 50) ∧
    (15 ≤ prices.length →
      (List.zipWith (fun a b => a - b)
          (prices.drop (prices.length - 15)).tail
          (prices.drop (prices.length - 15))).length = 14 ∧
      calculateRSI prices 14 =
        (if negLosses (List.zipWith (fun a b => a - b)
              (prices.drop (prices.length - 15)).tail
              (prices.drop (prices.length - 15))) / 14 = 0 then 100
         else 100 - 100 / (1 +
           (posGains (List.zipWith (fun a b => a - b)
              (prices.drop (prices.length - 15)).tail
              (prices.drop (prices.length - 15))) / 14) /
           (negLosses (List.zipWith (fun a b => a - b)
              (prices.drop (prices.length - 15)).tail
              (prices.drop (prices.length - 15))) / 14)))) ∧
    (15 ≤ prices.length → ∀ c : ℚ, (∀ x ∈ prices, x = c) →
      calculateRSI prices 14 = 100) := by
  have hmain : 15 ≤ prices.length → calculateRSI prices 14 =
      (if negLosses (List.zipWith (fun a b => a - b)
            (prices.drop (prices.length - 15)).tail
            (prices.drop (prices.length - 15))) / 14 = 0 then 100
       else 100 - 100 / (1 +
         (posGains (List.zipWith (fun a b => a - b)
            (prices.drop (prices.length - 15)).tail
            (prices.drop (prices.length - 15))) / 14) /
         (negLosses (List.zipWith (fun a b => a - b)
            (prices.drop (prices.length - 15)).tail
            (prices.drop (prices.length - 15))) / 14))) := by
    intro h
    unfold calculateRSI
    rw [if_neg (by omega)]
    simp only [rsi_foldl_eq, zero_add]
    norm_num
  refine ⟨?_, ?_, ?_⟩
  · intro h
    unfold calculateRSI
    rw [if_pos (by omega)]
  · intro h
    refine ⟨?_, hmain h⟩
    simp only [List.length_zipWith, List.length_tail, List.length_drop]
    omega
  · intro h c hc
    have hzero : negLosses (List.zipWith (fun a b => a - b)
        (prices.drop (prices.length - 15)).tail
        (prices.drop (prices.length - 15))) = 0 := by
      apply negLosses_eq_zero
      apply zip_sub_zero_of_const c
      · intro x hx
        exact hc x (List.mem_of_mem_drop (List.mem_of_mem_tail hx))
      · intro x hx
        exact hc x (List.mem_of_mem_drop hx)
    rw [hmain h, hzero]
    norm_num

/-- Witness for C2 at concrete inputs: a short history yields exactly 50
and a constant 15-price history yields exactly 100. -/
theorem calculateRSI_witness :
    calculateRSI [(1 : ℚ), 2] 14 = 50 ∧
    calculateRSI (List.replicate 15 (7 : ℚ)) 14 = 100 :=
  ⟨(calculateRSI_spec [(1 : ℚ), 2]).1 (by decide),
   (calculateRSI_spec (List.replicate 15 (7 : ℚ))).2.2 (by decide) 7
     (by decide)⟩

theorem emaGo_eq_foldl (m : ℚ) (xs : List ℚ) :
    ∀ ema : ℚ, emaGo m ema xs
      = xs.foldl (fun e x => (x - e) * m + e) ema := by
  induction xs with
  | nil =>
    intro ema
    rfl
  | cons x xs ih =>
    intro ema
    show emaGo m (ema + m * (x - ema)) xs = _
    rw [ih]
    have he : ema + m * (x - ema) = (x - ema) * m + ema := by ring
    rw [he]
    rfl

theorem calculateEMA_eq_emaSpec (data : List ℚ) (period : ℕ) :
    calculateEMA data period = emaSpec data period := by
  cases data with
  | nil => rfl
  | cons x xs =>
    show calculateEMA (x :: xs) period
      = emaGo (2 / ((period : ℚ) + 1)) x xs
    rw [emaGo_eq_foldl]
    rfl

theorem emaGo_const (m c : ℚ) (xs : List ℚ) (h : ∀ x ∈ xs, x = c) :
    emaGo m c xs = c := by
  induction xs with
  | nil => rfl
  | cons x xs ih =>
    have hx : x = c := h x (List.mem_cons_self _ _)
    show emaGo m (c + m * (x - c)) xs = c
    rw [hx, sub_self, mul_zero, add_zero]
    exact ih (fun z hz => h z (List.mem_cons_of_mem _ hz))

/-- **C3**: `calculateMACD` returns the all-zero triple on fewer than 26
closes; otherwise it works on exactly the last 26 closes, computes fast
and slow EMAs by the recursive EMA seeded with the window's first element
and multiplier `2/(period+1)`, and returns `dif = fastEMA − slowEMA`,
`dea = dif × 0.9` and `macd = 2 × (dif − dea)`. -/
theorem calculateMACD_spec (prices : List ℚ) :
    (prices.length < 26 → calculateMACD prices 12 26 = ⟨0, 0, 0⟩) ∧
    (26 ≤ prices.length →
      (prices.drop (prices.length - 26)).length = 26 ∧
      calculateMACD prices 12 26 =
        ⟨emaSpec (prices.drop (prices.length - 26)) 12 -
            emaSpec (prices.drop (prices.length - 26)) 26,
          (emaSpec (prices.drop (prices.length - 26)) 12 -
            emaSpec (prices.drop (prices.length - 26)) 26) * (9 / 10),
          2 * ((emaSpec (prices.drop (prices.length - 26)) 12 -
            emaSpec (prices.drop (prices.length - 26)) 26) -
            (emaSpec (prices.drop (prices.length - 26)) 12 -
            emaSpec (prices.drop (prices.length - 26)) 26) * (9 / 10))⟩) := by
  constructor
  · intro h
    unfold calculateMACD
    rw [if_pos (by omega)]
  · intro h
    constructor
    · simp only [List.length_drop]
      omega
    · unfold calculateMACD
      rw [if_neg (by omega)]
      simp [calculateEMA_eq_emaSpec]

/-- Witness for C3 at concrete inputs. -/
theorem calculateMACD_witness :
    calculateMACD [(1 : ℚ)] 12 26 = ⟨0, 0, 0⟩ ∧
    calculateMACD (List.replicate 26 (3 : ℚ)) 12 26 = ⟨0, 0, 0⟩ := by
  constructor
  · exact (calculateMACD_spec [(1 : ℚ)]).1 (by decide)
  · have h := ((calculateMACD_spec (List.replicate 26 (3 : ℚ))).2
      (by decide)).2
    rw [h]
    have hr : (List.replicate 26 (3 : ℚ)).drop
        ((List.replicate 26 (3 : ℚ)).length - 26) = List.replicate 26 (3 : ℚ) := by
      simp
    rw [hr]
    have h12 : emaSpec (List.replicate 26 (3 : ℚ)) 12 = 3 :=
      emaGo_const _ 3 _ (fun x hx => List.eq_of_mem_replicate hx)
    have h26 : emaSpec (List.replicate 26 (3 : ℚ)) 26 = 3 :=
      emaGo_const _ 3 _ (fun x hx => List.eq_of_mem_replicate hx)
    rw [h12, h26]
    norm_num

/-- **C10**: for every close list (and any periods), the `dea` component
of `calculateMACD` is `0.9` times `dif` and the `macd` component is `0.2`
times `dif` — including the all-zero short-history branch — so `dea` and
`macd` carry no information beyond `dif`. -/
theorem calculateMACD_dea_macd_scaling (prices : List ℚ)
    (fastPeriod slowPeriod : ℕ) :
    (calculateMACD prices fastPeriod slowPeriod).dea
        = (9 / 10) * (calculateMACD prices fastPeriod slowPeriod).dif ∧
    (calculateMACD prices fastPeriod slowPeriod).macd
        = (1 / 5) * (calculateMACD prices fastPeriod slowPeriod).dif := by
  unfold calculateMACD
  by_cases h : prices.length < slowPeriod
  · rw [if_pos h]
    norm_num
  · rw [if_neg h]
    dsimp only
    constructor
    · ring
    · ring

theorem foldl_max_spec (l : List ℚ) :
    ∀ a : ℚ, (l.foldl max a = a ∨ l.foldl max a ∈ l) ∧
      a ≤ l.foldl max a ∧ ∀ x ∈ l, x ≤ l.foldl max a := by
  induction l with
  | nil =>
    intro a
    simp
  | cons c cs ih =>
    intro a
    have h := ih (max a c)
    refine ⟨?_, ?_, ?_⟩
    · rcases h.1 with he | hm
      · rcases max_choice a c with hac | hac
        · rw [List.foldl_cons, he, hac]
          exact Or.inl rfl
        · rw [List.foldl_cons, he, hac]
          exact Or.inr (List.mem_cons_self _ _)
      · exact Or.inr (List.mem_cons_of_mem _ hm)
    · calc a ≤ max a c := le_max_left _ _
        _ ≤ (c :: cs).foldl max a := h.2.1
    · intro x hx
      rcases List.mem_cons.1 hx with hx | hx
      · rw [hx]
        calc c ≤ max a c := le_max_right _ _
          _ ≤ (c :: cs).foldl max a := h.2.1
      · exact h.2.2 x hx

theorem foldl_min_spec (l : List ℚ) :
    ∀ a : ℚ, (l.foldl min a = a ∨ l.foldl min a ∈ l) ∧
      l.foldl min a ≤ a ∧ ∀ x ∈ l, l.foldl min a ≤ x := by
  induction l with
  | nil =>
    intro a
    simp
  | cons c cs ih =>
    intro a
    have h := ih (min a c)
    refine ⟨?_, ?_, ?_⟩
    · rcases h.1 with he | hm
      · rcases min_choice a c with hac | hac
        · rw [List.foldl_cons, he, hac]
          exact Or.inl rfl
        · rw [List.foldl_cons, he, hac]
          exact Or.inr (List.mem_cons_self _ _)
      · exact Or.inr (List.mem_cons_of_mem _ hm)
    · calc (c :: cs).foldl min a ≤ min a c := h.2.1
        _ ≤ a := min_le_left _ _
    · intro x hx
      rcases List.mem_cons.1 hx with hx | hx
      · rw [hx]
        calc (c :: cs).foldl min a ≤ min a c := h.2.1
          _ ≤ c := min_le_right _ _
      · exact h.2.2 x hx

theorem listMax_spec (l : List ℚ) (h : l ≠ []) :
    listMax l ∈ l ∧ ∀ x ∈ l, x ≤ listMax l := by
  cases l with
  | nil => exact absurd rfl h
  | cons c cs =>
    have hs := foldl_max_spec cs c
    unfold listMax
    simp only [List.headD_cons, List.foldl_cons, max_self]
    constructor
    · rcases hs.1 with he | hm
      · rw [he]
        exact List.mem_cons_self _ _
      · exact List.mem_cons_of_mem _ hm
    · intro x hx
      rcases List.mem_cons.1 hx with hx | hx
      · rw [hx]
        exact hs.2.1
      · exact hs.2.2 x hx

theorem listMin_spec (l : List ℚ) (h : l ≠ []) :
    listMin l ∈ l ∧ ∀ x ∈ l, listMin l ≤ x := by
  cases l with
  | nil => exact absurd rfl h
  | cons c cs =>
    have hs := foldl_min_spec cs c
    unfold listMin
    simp only [List.headD_cons, List.foldl_cons, min_self]
    constructor
    · rcases hs.1 with he | hm
      · rw [he]
        exact List.mem_cons_self _ _
      · exact List.mem_cons_of_mem _ hm
    · intro x hx
      rcases List.mem_cons.1 hx with hx | hx
      · rw [hx]
        exact hs.2.1
      · exact hs.2.2 x hx

/-- **C6**: with period 9, `calculateKDJ` returns exactly `{50, 50, 50}`
when fewer than 9 highs are available; otherwise (for a non-empty low
list) it takes the last 9 highs/lows/closes, `highestHigh`/`lowestLow`
are the max/min over those windows, and it returns
`k = (2/3)·50 + (1/3)·rsv`, `d = (2/3)·50 + (1/3)·k`, `j = 3k − 2d` with
`rsv = (lastClose − lowestLow)/(highestHigh − lowestLow)·100`, always
assuming the previous K and D are 50 (no carry-over: the function reads
no state besides its arguments). -/
theorem calculateKDJ_spec (highs lows closes : List ℚ) :
    (highs.length < 9 → calculateKDJ highs lows closes 9 = ⟨50, 50, 50⟩) ∧
    (9 ≤ highs.length → lows ≠ [] →
      (listMax (highs.drop (highs.length - 9)) ∈ highs.drop (highs.length - 9) ∧
        ∀ x ∈ highs.drop (highs.length - 9),
          x ≤ listMax (highs.drop (highs.length - 9))) ∧
      (listMin (lows.drop (lows.length - 9)) ∈ lows.drop (lows.length - 9) ∧
        ∀ x ∈ lows.drop (lows.length - 9),
          listMin (lows.drop (lows.length - 9)) ≤ x) ∧
      calculateKDJ highs lows closes 9 =
        ⟨(2 / 3) * 50 + (1 / 3) *
            (((closes.drop (closes.length - 9)).getLastD 0 -
                listMin (lows.drop (lows.length - 9))) /
              (listMax (highs.drop (highs.length - 9)) -
                listMin (lows.drop (lows.length - 9))) * 100),
          (2 / 3) * 50 + (1 / 3) *
            ((2 / 3) * 50 + (1 / 3) *
              (((closes.drop (closes.length - 9)).getLastD 0 -
                  listMin (lows.drop (lows.length - 9))) /
                (listMax (highs.drop (highs.length - 9)) -
                  listMin (lows.drop (lows.length - 9))) * 100)),
          3 * ((2 / 3) * 50 + (1 / 3) *
            (((closes.drop (closes.length - 9)).getLastD 0 -
                listMin (lows.drop (lows.length - 9))) /
              (listMax (highs.drop (highs.length - 9)) -
                listMin (lows.drop (lows.length - 9))) * 100)) -
          2 * ((2 / 3) * 50 + (1 / 3) *
            ((2 / 3) * 50 + (1 / 3) *
              (((closes.drop (closes.length - 9)).getLastD 0 -
                  listMin (lows.drop (lows.length - 9))) /
                (listMax (highs.drop (highs.length - 9)) -
                  listMin (lows.drop (lows.length - 9))) * 100)))⟩) := by
  constructor
  · intro h
    unfold calculateKDJ
    rw [if_pos (by omega)]
  · intro h hlows
    have hhw : highs.drop (highs.length - 9) ≠ [] := by
      intro he
      have hl := congrArg List.length he
      simp only [List.length_drop, List.length_nil] at hl
      omega
    have hlw : lows.drop (lows.length - 9) ≠ [] := by
      intro he
      have hl := congrArg List.length he
      simp only [List.length_drop, List.length_nil] at hl
      have hz : lows.length = 0 := by omega
      exact hlows (List.length_eq_zero.1 hz)
    refine ⟨listMax_spec _ hhw, listMin_spec _ hlw, ?_⟩
    unfold calculateKDJ
    rw [if_neg (by omega)]

/-- Witness for C6 at concrete inputs. -/
theorem calculateKDJ_witness :
    calculateKDJ [(1 : ℚ)] [1] [1] 9 = ⟨50, 50, 50⟩ ∧
    calculateKDJ [(1 : ℚ), 2, 3, 4, 5, 6, 7, 8, 9]
        [(0 : ℚ), 1, 2, 3, 4, 5, 6, 7, 8]
        [(1 : ℚ), 2, 3, 4, 5, 6, 7, 8, 9] 9 =
      ⟨200 / 3, 500 / 9, 800 / 9⟩ := by
  constructor
  · exact (calculateKDJ_spec [(1 : ℚ)] [1] [1]).1 (by decide)
  · have h := ((calculateKDJ_spec [(1 : ℚ), 2, 3, 4, 5, 6, 7, 8, 9]
        [(0 : ℚ), 1, 2, 3, 4, 5, 6, 7, 8]
        [(1 : ℚ), 2, 3, 4, 5, 6, 7, 8, 9]).2 (by decide) (by decide)).2.2
    rw [h]
    norm_num [listMax, listMin, List.foldl, max_def, min_def,
      List.getLastD, List.getLast?, KDJResult.mk.injEq]

theorem foldl_add_of_const (c : ℚ) (l : List ℚ) :
    ∀ init : ℚ, (∀ x ∈ l, x = c) →
      l.foldl (· + ·) init = init + l.length * c := by
  induction l with
  | nil =>
    intro init _
    simp
  | cons x xs ih =>
    intro init h
    have hx : x = c := h x (List.mem_cons_self _ _)
    rw [List.foldl_cons,
      ih (init + x) (fun z hz => h z (List.mem_cons_of_mem _ hz)), hx]
    simp only [List.length_cons]
    push_cast
    ring

/-- **C9**: for every close list of at least 20 identical elements,
`calculateBOLL` with period 20 and multiplier 2 has
`upper = lower = middle`: the population standard deviation of the
window is zero so both bands coincide with the middle band. -/
theorem calculateBOLL_const (prices : List ℚ) (c : ℚ)
    (hlen : 20 ≤ prices.length) (hconst : ∀ x ∈ prices, x = c) :
    (calculateBOLL prices 20 2).upper = (calculateBOLL prices 20 2).middle ∧
    (calculateBOLL prices 20 2).lower = (calculateBOLL prices 20 2).middle := by
  have hwlen : (prices.drop (prices.length - 20)).length = 20 := by
    simp only [List.length_drop]
    omega
  have hwconst : ∀ x ∈ prices.drop (prices.length - 20), x = c :=
    fun x hx => hconst x (List.mem_of_mem_drop hx)
  have hsum : (prices.drop (prices.length - 20)).foldl (· + ·) 0
      = 20 * c := by
    rw [foldl_add_of_const c _ 0 hwconst, hwlen]
    push_cast
    ring
  have hmid : (prices.drop (prices.length - 20)).foldl (· + ·) 0 / (20 : ℚ)
      = c := by
    rw [hsum]
    field_simp
  have hsq : ((prices.drop (prices.length - 20)).map
      (fun price => (price -
        (prices.drop (prices.length - 20)).foldl (· + ·) 0 / (20 : ℚ)) ^ 2)).foldl
      (· + ·) 0 = 0 := by
    have hz : ∀ y ∈ (prices.drop (prices.length - 20)).map
        (fun price => (price -
          (prices.drop (prices.length - 20)).foldl (· + ·) 0 / (20 : ℚ)) ^ 2),
        y = 0 := by
      intro y hy
      rcases List.mem_map.1 hy with ⟨x, hx, hxy⟩
      rw [← hxy, hwconst x hx, hmid]
      ring
    rw [foldl_add_of_const 0 _ 0 hz]
    ring
  unfold calculateBOLL
  rw [if_neg (by omega)]
  dsimp only
  simp only [Nat.cast_ofNat]
  rw [hsq]
  norm_num

/-- Witness for C9 at a concrete constant input. -/
theorem calculateBOLL_witness :
    20 ≤ (List.replicate 20 (5 : ℚ)).length ∧
    (calculateBOLL (List.replicate 20 (5 : ℚ)) 20 2).upper
        = (calculateBOLL (List.replicate 20 (5 : ℚ)) 20 2).middle ∧
    (calculateBOLL (List.replicate 20 (5 : ℚ)) 20 2).lower
        = (calculateBOLL (List.replicate 20 (5 : ℚ)) 20 2).middle :=
  ⟨by decide,
   (calculateBOLL_const (List.replicate 20 (5 : ℚ)) 5 (by decide) (by decide)).1,
   (calculateBOLL_const (List.replicate 20 (5 : ℚ)) 5 (by decide) (by decide)).2⟩

/-- **C1**: decoding a single-instrument snapshot payload splits it on
`'~'` and cases on the field count: fewer than 30 fields always yields
the not-found report; fewer than 45 fields yields the
fundamentals-unavailable report; with at least 45 fields PE (field 39,
blank meaning "N/A", hence never empty), PB (field 46 when the array has
more than 46 elements, else field 44) and market cap (field 45) are all
populated. -/
theorem snapshot_decode_guards (payload : List Char) :
    ((splitCh '~' payload).length < 30 →
      get_stock_price_decode payload = PriceReport.notFound) ∧
    ((splitCh '~' payload).length < 45 →
      get_stock_fundamentals_decode payload = FundReport.unavailable) ∧
    (45 ≤ (splitCh '~' payload).length →
      get_stock_fundamentals_decode payload = FundReport.ok
        ((splitCh '~' payload).getD 1 [])
        (if (splitCh '~' payload).getD 39 [] = [] then naText
         else (splitCh '~' payload).getD 39 [])
        (if 46 < (splitCh '~' payload).length then
          (splitCh '~' payload).getD 46 []
         else (splitCh '~' payload).getD 44 [])
        ((splitCh '~' payload).getD 45 []) ∧
      (if (splitCh '~' payload).getD 39 [] = [] then naText
       else (splitCh '~' payload).getD 39 []) ≠ []) := by
  refine ⟨?_, ?_, ?_⟩
  · intro h
    unfold get_stock_price_decode
    rw [if_pos h]
  · intro h
    unfold get_stock_fundamentals_decode
    rw [if_pos h]
  · intro h
    constructor
    · unfold get_stock_fundamentals_decode
      rw [if_neg (by omega)]
    · by_cases h39 : (splitCh '~' payload).getD 39 [] = []
      · rw [if_pos h39]
        simp [naText]
      · rw [if_neg h39]
        exact h39

/-- Witness for C1: a 20-field payload is "not found" for the price
decode and "unavailable" for fundamentals; a 47-field payload populates
name, PE, PB (field 46) and market cap. -/
theorem snapshot_decode_witness :
    get_stock_price_decode c1short = PriceReport.notFound ∧
    get_stock_fundamentals_decode c1short = FundReport.unavailable ∧
    get_stock_fundamentals_decode c1payload
        = FundReport.ok ['a'] ['a'] ['a'] ['a'] := by
  refine ⟨(snapshot_decode_guards c1short).1 (by decide),
    (snapshot_decode_guards c1short).2.1 (by decide), ?_⟩
  exact (((snapshot_decode_guards c1payload).2.2 (by decide)).1).trans (by decide)

theorem splitCh_ne_nil (sep : Char) (l : List Char) : splitCh sep l ≠ [] := by
  induction l with
  | nil => simp [splitCh]
  | cons c rest ih =>
    unfold splitCh
    by_cases h : c = sep
    · simp [h]
    · rw [if_neg h]
      cases hs : splitCh sep rest with
      | nil => simp
      | cons a t => simp

theorem mem_imp_two_le_splitCh (sep : Char) (l : List Char) (h : sep ∈ l) :
    2 ≤ (splitCh sep l).length := by
  induction l with
  | nil => simp at h
  | cons c rest ih =>
    unfold splitCh
    by_cases hc : c = sep
    · rw [if_pos hc]
      have hp : 0 < (splitCh sep rest).length :=
        List.length_pos.2 (splitCh_ne_nil sep rest)
      simp only [List.length_cons]
      omega
    · rw [if_neg hc]
      have hm : sep ∈ rest := by
        rcases List.mem_cons.1 h with he | hm
        · exact absurd he.symm hc
        · exact hm
      have h2 := ih hm
      cases hs : splitCh sep rest with
      | nil => rw [hs] at h2; simp at h2
      | cons a t =>
        rw [hs] at h2
        simp only [List.length_cons] at h2 ⊢
        omega

theorem decodeIndexLine_eq_spec (table : List (List Char × List Char))
    (line : List Char) (h : '"' ∈ line) :
    decodeIndexLine table line = .ok (indexLineSpec table line) := by
  have h2 := mem_imp_two_le_splitCh '"' line h
  have h1 : 1 < (splitCh '"' line).length := by omega
  have hsome : (splitCh '"' line)[1]? = some ((splitCh '"' line).getD 1 []) := by
    rw [List.getElem?_eq_getElem h1, List.getD_eq_getElem?_getD,
      List.getElem?_eq_getElem h1]
    rfl
  unfold decodeIndexLine indexLineSpec
  rw [hsome]
  dsimp only
  cases extractAssignKey line with
  | none => rfl
  | some code =>
    dsimp only
    cases hlook : List.lookup code table with
    | none => rfl
    | some nm =>
      by_cases hnm : nm = []
      · simp [hnm]
      · simp [hnm]

theorem decodeIndexLines_eq (table : List (List Char × List Char)) :
    ∀ lines : List (List Char),
      (∀ line ∈ lines, 10 ≤ line.length → '"' ∈ line) →
      decodeIndexLines table lines =
        .ok ((lines.filter (fun l => 10 ≤ l.length)).filterMap
          (indexLineSpec table)) := by
  intro lines
  induction lines with
  | nil =>
    intro _
    rfl
  | cons line rest ih =>
    intro hrec
    have hr : ∀ l ∈ rest, 10 ≤ l.length → '"' ∈ l :=
      fun l hl => hrec l (List.mem_cons_of_mem _ hl)
    unfold decodeIndexLines
    by_cases hlen : line.length < 10
    · rw [if_pos hlen]
      have hfil : List.filter (fun l => 10 ≤ l.length) (line :: rest)
          = List.filter (fun l => 10 ≤ l.length) rest := by
        simp [List.filter_cons, show ¬ (10 ≤ line.length) from by omega]
      rw [hfil]
      exact ih hr
    · rw [if_neg hlen]
      have hq : '"' ∈ line := hrec line (List.mem_cons_self _ _) (by omega)
      rw [decodeIndexLine_eq_spec table line hq]
      have hfil : List.filter (fun l => 10 ≤ l.length) (line :: rest)
          = line :: List.filter (fun l => 10 ≤ l.length) rest := by
        simp [List.filter_cons, show 10 ≤ line.length from by omega]
      rw [hfil, List.filterMap_cons]
      cases hspec : indexLineSpec table line with
      | none => exact ih hr
      | some q =>
        show (match decodeIndexLines table rest with
          | .error e => Except.error e
          | .ok qs => .ok (q :: qs)) = _
        rw [ih hr]

/-- **C7**: for an index-snapshot text all of whose 10-character-or-longer
lines carry a quoted payload (i.e. are records), the decoder splits on
newlines, skips every line shorter than 10 characters, emits for each
remaining line whose assignment key is in the supplied key table an
`IndexQuote` with price = field 1 and changePercent = field 3 of the
comma-split quoted payload, silently skips lines whose key is not in the
table, and never fails (the result is `.ok`). -/
theorem get_market_overview_spec (table : List (List Char × List Char))
    (text : List Char)
    (hrec : ∀ line ∈ splitCh '\n' text, 10 ≤ line.length → '"' ∈ line) :
    get_market_overview_decode table text =
      .ok (((splitCh '\n' text).filter (fun l => 10 ≤ l.length)).filterMap
        (indexLineSpec table)) :=
  decodeIndexLines_eq table (splitCh '\n' text) hrec

/-- Witness for C7 on the spec's end-to-end example line. -/
theorem get_market_overview_witness :
    get_market_overview_decode c7table c7text =
      .ok [⟨"上证指数".toList, "3000.00".toList, "-0.33".toList⟩] :=
  (get_market_overview_spec c7table c7text (by decide)).trans
    (congrArg Except.ok (by decide))

theorem insertDesc_perm (key : StockItem → ℚ) (a : StockItem) :
    ∀ l : List StockItem, (insertDesc key a l).Perm (a :: l) := by
  intro l
  induction l with
  | nil => exact List.Perm.refl _
  | cons b l ih =>
    unfold insertDesc
    by_cases h : key b ≤ key a
    · rw [if_pos h]
    · rw [if_neg h]
      exact (ih.cons b).trans (List.Perm.swap a b l)

theorem sortDesc_perm (key : StockItem → ℚ) (l : List StockItem) :
    (sortDesc key l).Perm l := by
  induction l with
  | nil => exact List.Perm.refl _
  | cons a l ih =>
    unfold sortDesc at ih ⊢
    rw [List.foldr_cons]
    exact (insertDesc_perm key a _).trans (ih.cons a)

/-- **C4** (amended): in the multi-instrument aggregation a per-code
decode failure never aborts or fails the batch — the result is the list
of successfully decoded items, sorted and truncated to `limit` — but no
count of the failed codes is returned: the batch result consists of
items only, each coming from a successful decode. -/
theorem getHotStocksAggregate_spec (codes : List (List Char))
    (fetchDecode : List Char → Option StockItem) (sortBy : SortBy)
    (limit : ℕ) :
    (getHotStocksAggregate codes fetchDecode sortBy limit).length
        = min limit (codes.filterMap fetchDecode).length ∧
    ∀ it ∈ getHotStocksAggregate codes fetchDecode sortBy limit,
      ∃ c ∈ codes, fetchDecode c = some it := by
  constructor
  · unfold getHotStocksAggregate
    rw [List.length_take, (sortDesc_perm _ _).length_eq]
  · intro it hit
    unfold getHotStocksAggregate at hit
    have h1 : it ∈ sortDesc (sortKeyVal sortBy) (codes.filterMap fetchDecode) :=
      List.mem_of_mem_take hit
    have h2 : it ∈ codes.filterMap fetchDecode :=
      ((sortDesc_perm _ _).mem_iff).1 h1
    exact List.mem_filterMap.1 h2

/-- Witness for C4 (amended): ten codes of which three fail yield seven
items, and a concrete returned item comes from a successful decode. -/
theorem getHotStocksAggregate_witness :
    (getHotStocksAggregate c4codesA c4decode SortBy.change_rate 20).length = 7 ∧
    ∃ c ∈ c4codesA, c4decode c = some ⟨['a'], ['a'], 0, 7, 0, 0⟩ := by
  constructor
  · rw [(getHotStocksAggregate_spec c4codesA c4decode SortBy.change_rate 20).1]
    decide
  · exact (getHotStocksAggregate_spec c4codesA c4decode SortBy.change_rate 20).2
      ⟨['a'], ['a'], 0, 7, 0, 0⟩ (by decide)

/-- **C4** counterexample: a batch of ten codes with three decode
failures and a batch of seven codes with no failure produce *identical*
aggregation results, so the operation returns no count of failed codes
(`failedCount` does not exist in, and cannot be recovered from, the
result). -/
theorem get_hot_stocks_no_failed_count :
    (c4codesA.filter (fun c => c4decode c = none)).length = 3 ∧
    (c4codesB.filter (fun c => c4decode c = none)).length = 0 ∧
    (c4codesA.filterMap c4decode).length = 7 ∧
    getHotStocksAggregate c4codesA c4decode SortBy.change_rate 20
        = getHotStocksAggregate c4codesB c4decode SortBy.change_rate 20 := by
  decide

theorem setDedup_nodup {α : Type} [DecidableEq α] :
    ∀ (l seen : List α),
      (setDedup seen l).Nodup ∧ ∀ x ∈ setDedup seen l, x ∉ seen := by
  intro l
  induction l with
  | nil =>
    intro seen
    refine ⟨List.nodup_nil, ?_⟩
    intro x hx
    simp [setDedup] at hx
  | cons a l ih =>
    intro seen
    unfold setDedup
    by_cases h : a ∈ seen
    · rw [if_pos h]
      exact ih seen
    · rw [if_neg h]
      have iha := ih (a :: seen)
      constructor
      · refine List.nodup_cons.2 ⟨?_, iha.1⟩
        intro hmem
        exact iha.2 a hmem (List.mem_cons_self a seen)
      · intro x hx
        rcases List.mem_cons.1 hx with he | hm
        · rw [he]
          exact h
        · intro hxs
          exact iha.2 x hm (List.mem_cons_of_mem _ hxs)

/-- **C8** (amended): the hot-list ranking deduplicates its candidate
code list (`[...new Set(...)].slice(0, limit)`) before the fetch loop,
so the list of codes it fetches contains no code twice.  (Peer
comparison does not share this property — see the counterexample.) -/
theorem hotStocksCodes_nodup (market : Market) (limit : ℕ) :
    (hotStocksCodes market limit).Nodup := by
  unfold hotStocksCodes jsSetDedup
  exact List.Nodup.sublist (List.take_sublist _ _)
    (setDedup_nodup (hotStocksBase market) []).1

/-- **C8** counterexample: for the peer-comparison request on symbol
`000001` (normalized `sz000001`) with the default limit 10 and every
fetch succeeding, the fetched-code sequence contains duplicates — the
hardcoded `szPeerCodes` list repeats codes and `get_stock_peers` does
not deduplicate, so the same instrument is fetched more than once. -/
theorem get_stock_peers_duplicate_fetch :
    ¬ (get_stock_peers_fetched ("000001".toList) (fun _ => true) 10).Nodup := by
  decide


end StockMcp
